import Mathlib

/-!
Verification of the PacVolt Analysis converter (`src/pva.py`).

The development shallowly embeds the temporal-normalization and
fault-correlation engine of `pva.py`:

* absolute instants are modelled as natural numbers of seconds since the
  start of year 1 of the proleptic Gregorian calendar (the same calendar
  Python's `datetime` uses, restricted to nonnegative instants);
* the canonical textual SCET form `YYYY-DDDTHH:MM:SS` produced by
  `strftime('%Y-%jT%H:%M:%S')` is modelled by the structure `SCET`
  carrying the five rendered fields;
* fallible parsing (`try`/`except` around `strptime`/`int`) is modelled
  with `Option`;
* lists of CSV cells stand for the rows delivered by `csv.reader`.
-/

/-- Gregorian leap-year test, as implemented by Python's `calendar`/`datetime`. -/
def isLeap (y : Nat) : Bool :=
  (y % 4 == 0 && y % 100 != 0) || (y % 400 == 0)

/-- Number of days in year `y`. -/
def daysInYear (y : Nat) : Nat :=
  if isLeap y then 366 else 365

/-- Number of leap years among `1, …, n`. -/
def leapsUpTo (n : Nat) : Nat :=
  n / 4 - n / 100 + n / 400

/-- Number of days in years `1, …, y-1`, i.e. the 0-based rata-die index of
`y`-Jan-1. -/
def daysBeforeYear (y : Nat) : Nat :=
  365 * (y - 1) + leapsUpTo (y - 1)

/-- Convert a 0-based day index (days since year 1, day 1) into an ordinal
date `(year, day-of-year)` with `day-of-year` 1-based, by stepping through
the years.  `fuel` bounds the recursion; `d + 1` steps always suffice. -/
def daysToOrdinal : Nat → Nat → Nat → Nat × Nat
  | 0, y, d => (y, d + 1)
  | fuel + 1, y, d =>
    if d < daysInYear y then (y, d + 1)
    else daysToOrdinal fuel (y + 1) (d - daysInYear y)

/-- Ordinal date of the 0-based absolute day index `d`. -/
def ordinalOfAbsDay (d : Nat) : Nat × Nat :=
  daysToOrdinal (d + 1) 1 d

/-- The rendered canonical SCET timestamp `YYYY-DDDTHH:MM:SS`:
year, 1-based day of year, hour, minute, second. -/
structure SCET where
  year : Nat
  doy : Nat
  hour : Nat
  minute : Nat
  second : Nat
deriving DecidableEq, Repr

/-- The absolute instant (in seconds) denoted by a rendered SCET timestamp.
This is exactly how Python's `datetime.strptime(s, '%Y-%jT%H:%M:%S')`
interprets the five fields (a day-of-year beyond the year's length rolls
into the following year, as `date.fromordinal` does). -/
def secOfScet (a : SCET) : Nat :=
  (daysBeforeYear a.year + (a.doy - 1)) * 86400
    + a.hour * 3600 + a.minute * 60 + a.second

/-- Render an absolute instant (seconds) as a canonical SCET timestamp;
this models `strftime('%Y-%jT%H:%M:%S')` applied to a `datetime`. -/
def ordinalOfSeconds (t : Nat) : SCET :=
  ⟨(ordinalOfAbsDay (t / 86400)).1, (ordinalOfAbsDay (t / 86400)).2,
    t % 86400 / 3600, t % 86400 % 3600 / 60, t % 86400 % 60⟩

/-- A rendered SCET value is canonical when every field is inside the range
`strftime` actually produces. -/
def SCET.canonical (a : SCET) : Prop :=
  1 ≤ a.year ∧ 1 ≤ a.doy ∧ a.doy ≤ daysInYear a.year ∧
    a.hour ≤ 23 ∧ a.minute ≤ 59 ∧ a.second ≤ 59

/-- Chronological (equivalently, fixed-width lexicographic textual) order on
rendered SCET timestamps. -/
def scetLE (a b : SCET) : Prop :=
  a.year < b.year ∨ (a.year = b.year ∧
    (a.doy < b.doy ∨ (a.doy = b.doy ∧
      (a.hour < b.hour ∨ (a.hour = b.hour ∧
        (a.minute < b.minute ∨ (a.minute = b.minute ∧ a.second ≤ b.second)))))))

instance (a b : SCET) : Decidable (scetLE a b) := by
  unfold scetLE; infer_instance

/-! ### Basic calendar lemmas -/

theorem daysInYear_pos (y : Nat) : 365 ≤ daysInYear y := by
  unfold daysInYear; split <;> omega

theorem isLeap_iff (y : Nat) :
    isLeap y = true ↔ ((y % 4 = 0 ∧ ¬ y % 100 = 0) ∨ y % 400 = 0) := by
  simp [isLeap]

theorem leapsUpTo_succ (n : Nat) :
    leapsUpTo (n + 1) = leapsUpTo n + (if isLeap (n + 1) then 1 else 0) := by
  have h4 := Nat.succ_div n 4
  have h100 := Nat.succ_div n 100
  have h400 := Nat.succ_div n 400
  have i1 : (4 ∣ n + 1) ↔ (n + 1) % 4 = 0 := Nat.dvd_iff_mod_eq_zero
  have i2 : (100 ∣ n + 1) ↔ (n + 1) % 100 = 0 := Nat.dvd_iff_mod_eq_zero
  have i3 : (400 ∣ n + 1) ↔ (n + 1) % 400 = 0 := Nat.dvd_iff_mod_eq_zero
  simp only [i1] at h4
  simp only [i2] at h100
  simp only [i3] at h400
  have him1 : (n + 1) % 100 = 0 → (n + 1) % 4 = 0 := by
    intro h
    have h2 : (4 ∣ n + 1) := dvd_trans (show (4 : Nat) ∣ 100 by norm_num)
      (Nat.dvd_iff_mod_eq_zero.mpr h)
    omega
  have him2 : (n + 1) % 400 = 0 → (n + 1) % 100 = 0 := by
    intro h
    have h2 : (100 ∣ n + 1) := dvd_trans (show (100 : Nat) ∣ 400 by norm_num)
      (Nat.dvd_iff_mod_eq_zero.mpr h)
    omega
  have hle : n / 100 ≤ n / 4 := Nat.div_le_div_left (by omega) (by omega)
  have hL : (if isLeap (n + 1) then (1 : Nat) else 0)
      = if ((n + 1) % 4 = 0 ∧ ¬ (n + 1) % 100 = 0) ∨ (n + 1) % 400 = 0 then 1 else 0 := by
    by_cases hl : isLeap (n + 1) = true
    · rw [if_pos hl, if_pos ((isLeap_iff (n + 1)).mp hl)]
    · rw [if_neg hl, if_neg fun hc => hl ((isLeap_iff (n + 1)).mpr hc)]
  unfold leapsUpTo
  rw [h4, h100, h400, hL]
  split_ifs <;> omega

theorem daysBeforeYear_succ (y : Nat) (hy : 1 ≤ y) :
    daysBeforeYear (y + 1) = daysBeforeYear y + daysInYear y := by
  obtain ⟨n, rfl⟩ : ∃ n, y = n + 1 := ⟨y - 1, by omega⟩
  have h := leapsUpTo_succ n
  have e1 : daysBeforeYear (n + 1 + 1) = 365 * (n + 1) + leapsUpTo (n + 1) := by
    unfold daysBeforeYear; norm_num
  have e2 : daysBeforeYear (n + 1) = 365 * n + leapsUpTo n := by
    unfold daysBeforeYear; norm_num
  have e3 : daysInYear (n + 1) = if isLeap (n + 1) then 366 else 365 := rfl
  rw [e1, e2, e3]
  by_cases hl : isLeap (n + 1) <;> simp [hl] at h ⊢ <;> omega

theorem daysBeforeYear_mono {y y' : Nat} (h1 : 1 ≤ y) (h : y ≤ y') :
    daysBeforeYear y ≤ daysBeforeYear y' := by
  induction y' with
  | zero => omega
  | succ n ih =>
    rcases Nat.lt_or_ge y (n + 1) with hlt | hge
    · have hn : 1 ≤ n := by omega
      have hs : daysBeforeYear (n + 1) = daysBeforeYear n + daysInYear n :=
        daysBeforeYear_succ n hn
      have hi : daysBeforeYear y ≤ daysBeforeYear n := ih (by omega)
      omega
    · have he : y = n + 1 := by omega
      rw [he]

theorem daysToOrdinal_spec : ∀ (fuel y d : Nat), d < fuel → 1 ≤ y →
    daysBeforeYear (daysToOrdinal fuel y d).1 + ((daysToOrdinal fuel y d).2 - 1)
        = daysBeforeYear y + d ∧
      1 ≤ (daysToOrdinal fuel y d).2 ∧
      (daysToOrdinal fuel y d).2 ≤ daysInYear (daysToOrdinal fuel y d).1 ∧
      1 ≤ (daysToOrdinal fuel y d).1 := by
  intro fuel
  induction fuel with
  | zero => intro y d h; omega
  | succ n ih =>
    intro y d h hy
    rw [daysToOrdinal]
    split
    · dsimp only
      refine ⟨by omega, by omega, by omega, hy⟩
    · rename_i hge
      have hpos := daysInYear_pos y
      have hrec := ih (y + 1) (d - daysInYear y) (by omega) (by omega)
      have hstep := daysBeforeYear_succ y hy
      refine ⟨?_, hrec.2.1, hrec.2.2.1, hrec.2.2.2⟩
      omega

theorem ordinalOfAbsDay_spec (d : Nat) :
    daysBeforeYear (ordinalOfAbsDay d).1 + ((ordinalOfAbsDay d).2 - 1) = d ∧
      1 ≤ (ordinalOfAbsDay d).2 ∧
      (ordinalOfAbsDay d).2 ≤ daysInYear (ordinalOfAbsDay d).1 ∧
      1 ≤ (ordinalOfAbsDay d).1 := by
  have h := daysToOrdinal_spec (d + 1) 1 d (by omega) (by omega)
  unfold ordinalOfAbsDay
  have hb : daysBeforeYear 1 = 0 := by unfold daysBeforeYear leapsUpTo; simp
  constructor
  · omega
  · exact h.2

theorem ordinalOfSeconds_canonical (t : Nat) : (ordinalOfSeconds t).canonical := by
  have h := ordinalOfAbsDay_spec (t / 86400)
  have h1 : t % 86400 < 86400 := Nat.mod_lt _ (by omega)
  unfold ordinalOfSeconds SCET.canonical
  dsimp only
  exact ⟨h.2.2.2, h.2.1, h.2.2.1, by omega, by omega, by omega⟩

theorem secOfScet_ordinalOfSeconds (t : Nat) : secOfScet (ordinalOfSeconds t) = t := by
  have h := (ordinalOfAbsDay_spec (t / 86400)).1
  unfold ordinalOfSeconds secOfScet
  dsimp only
  rw [h]
  omega

/-- Strict lexicographic comparison implies strict instant comparison, on
canonical values. -/
theorem secOfScet_lt_of_lexlt {a b : SCET} (ha : a.canonical) (hb : b.canonical)
    (h : b.year < a.year ∨ (b.year = a.year ∧
      (b.doy < a.doy ∨ (b.doy = a.doy ∧
        (b.hour < a.hour ∨ (b.hour = a.hour ∧
          (b.minute < a.minute ∨ (b.minute = a.minute ∧ b.second < a.second)))))))) :
    secOfScet b < secOfScet a := by
  obtain ⟨hy1, hd1, hd2, hh, hm, hs⟩ := ha
  obtain ⟨hy1', hd1', hd2', hh', hm', hs'⟩ := hb
  unfold secOfScet
  rcases h with h | ⟨hyeq, h⟩
  · have hstep := daysBeforeYear_succ b.year hy1'
    have hmono : daysBeforeYear (b.year + 1) ≤ daysBeforeYear a.year :=
      daysBeforeYear_mono (by omega) (by omega)
    omega
  · rw [hyeq]
    rcases h with h | ⟨hdeq, h⟩
    · omega
    · rw [hdeq]; omega

/-- On canonical values, the lexicographic order on the rendered fields
coincides with the order of the denoted instants. -/
theorem scetLE_iff_secOfScet_le {a b : SCET} (ha : a.canonical) (hb : b.canonical) :
    scetLE a b ↔ secOfScet a ≤ secOfScet b := by
  constructor
  · intro h
    rcases eq_or_ne a b with rfl | hne
    · exact le_refl _
    · have hne' : ¬(a.year = b.year ∧ a.doy = b.doy ∧ a.hour = b.hour ∧
          a.minute = b.minute ∧ a.second = b.second) := by
        intro hall
        apply hne
        cases a; cases b; simp_all
      have hstrict : a.year < b.year ∨ (a.year = b.year ∧
          (a.doy < b.doy ∨ (a.doy = b.doy ∧
            (a.hour < b.hour ∨ (a.hour = b.hour ∧
              (a.minute < b.minute ∨ (a.minute = b.minute ∧ a.second < b.second))))))) := by
        unfold scetLE at h; omega
      exact le_of_lt (secOfScet_lt_of_lexlt hb ha hstrict)
  · intro h
    by_contra hc
    have hstrict : b.year < a.year ∨ (b.year = a.year ∧
        (b.doy < a.doy ∨ (b.doy = a.doy ∧
          (b.hour < a.hour ∨ (b.hour = a.hour ∧
            (b.minute < a.minute ∨ (b.minute = a.minute ∧ b.second < a.second))))))) := by
      unfold scetLE at hc; omega
    have := secOfScet_lt_of_lexlt ha hb hstrict
    omega

/-! ### `check_overlap` (src/pva.py lines 608-623)

Two time ranges, each endpoint possibly `None`; ranges overlap iff each
starts no later than the other ends.  Instants are modelled as absolute
seconds. -/

def check_overlap (range1_min range1_max range2_min range2_max : Option Nat) : Bool :=
  match range1_min, range1_max, range2_min, range2_max with
  | some a, some b, some c, some d => decide (a ≤ d ∧ c ≤ b)
  | _, _, _, _ => false

/-- C4: `check_overlap` treats both ranges as closed intervals: on defined
ranges it returns true exactly when `start1 ≤ end2` and `start2 ≤ end1`; in
particular `[t0,t10]` and `[t10,t20]` overlap (shared boundary counts)
while `[t0,t9]` and `[t10,t20]` do not. -/
theorem check_overlap_closed_intervals :
    (∀ s1 e1 s2 e2 : Nat,
      check_overlap (some s1) (some e1) (some s2) (some e2) = true ↔ (s1 ≤ e2 ∧ s2 ≤ e1)) ∧
    check_overlap (some 0) (some 10) (some 10) (some 20) = true ∧
    check_overlap (some 0) (some 9) (some 10) (some 20) = false := by
  refine ⟨?_, by decide, by decide⟩
  intro s1 e1 s2 e2
  simp [check_overlap]

/-! ### `extract_unit_from_column_name` (src/pva.py lines 49-62)

Python: `if '(' in column_name and column_name.endswith(')')`, split at the
first `'('`, unit is everything up to (excluding) the final character.
`endswith(')')` is modelled as the last character being `')'`. -/

def extract_unit_from_column_name (column_name : String) : String × String :=
  if column_name.toList.contains '(' ∧ column_name.toList.getLast? = some ')' then
    (String.mk (column_name.toList.take (column_name.toList.indexOf '(')),
      String.mk ((column_name.toList.drop (column_name.toList.indexOf '(' + 1)).dropLast))
  else
    (column_name, "")

theorem indexOf_append_not_mem {l1 l2 : List Char} {c : Char} (h : c ∉ l1) :
    (l1 ++ c :: l2).indexOf c = l1.length := by
  induction l1 with
  | nil => simp [List.indexOf_cons_self]
  | cons x xs ih =>
    have hx : ¬(x == c) := by
      intro hc
      exact h (by simp [eq_of_beq hc])
    have hm : c ∉ xs := fun hc => h (by simp [hc])
    simp only [List.cons_append, List.indexOf_cons, ih hm]
    rw [cond_eq_if, if_neg hx]
    simp

/-- C10: a column name whose last character is not `')'` is returned
unchanged with an empty unit, even if it contains `'('`; a name that ends
with `')'` and contains a `'('` is split at the first `'('`, the unit being
everything strictly between the first `'('` and the final `')'` (which may
itself contain parentheses). -/
theorem extract_unit_spec :
    (∀ s : String, s.toList.getLast? ≠ some ')' →
      extract_unit_from_column_name s = (s, "")) ∧
    (∀ (l1 l2 : List Char), '(' ∉ l1 →
      (l1 ++ '(' :: l2).getLast? = some ')' →
      extract_unit_from_column_name (String.mk (l1 ++ '(' :: l2))
        = (String.mk l1, String.mk l2.dropLast)) := by
  constructor
  · intro s h
    unfold extract_unit_from_column_name
    rw [if_neg]
    intro hc
    exact h hc.2
  · intro l1 l2 h1 hlast
    unfold extract_unit_from_column_name
    have hl : (String.mk (l1 ++ '(' :: l2)).toList = l1 ++ '(' :: l2 := rfl
    rw [if_pos]
    · rw [hl, indexOf_append_not_mem h1]
      have htake : (l1 ++ '(' :: l2).take l1.length = l1 :=
        List.take_left l1 ('(' :: l2)
      have hdrop : (l1 ++ '(' :: l2).drop (l1.length + 1) = l2 := by
        rw [List.drop_append_eq_append_drop]
        simp
      rw [htake, hdrop]
    · rw [hl]
      exact ⟨by simp, hlast⟩

/-- Witness for the C10 theorem: the spec's own example `"A(b)(c)"` decodes
to name `"A"` and unit `"b)(c"`, and `"AvgVin"` (no trailing `')'`) is
returned unchanged. -/
theorem extract_unit_spec_witness :
    "AvgVin".toList.getLast? ≠ some ')' ∧
      extract_unit_from_column_name "AvgVin" = ("AvgVin", "") ∧
      extract_unit_from_column_name (String.mk (['A'] ++ '(' :: ['b', ')', '(', 'c', ')']))
        = (String.mk ['A'], String.mk ['b', ')', '(', 'c', ')'].dropLast) := by
  refine ⟨by decide, extract_unit_spec.1 "AvgVin" (by decide), ?_⟩
  exact extract_unit_spec.2 ['A'] ['b', ')', '(', 'c', ')'] (by decide) (by decide)

/-! ### `parse_time_offset_to_scet` (src/pva.py lines 65-99)

The source parses a relative offset `HH:MM:SS[.frac]`, builds a
`timedelta(hours, minutes, seconds, microseconds)`, adds it to the anchor
`datetime` and renders the sum with `strftime('%Y-%jT%H:%M:%S')` (whole
seconds only).  The numeric core is modelled on already-split fields
(`TimeOffset`); the string-field parsing of lines 80-91 is modelled
separately by `parseOffsetFields` below. -/

structure TimeOffset where
  hours : Nat
  minutes : Nat
  seconds : Nat
  micros : Nat
deriving DecidableEq, Repr

/-- The duration denoted by an offset, in microseconds
(`timedelta(hours=h, minutes=m, seconds=s, microseconds=f)`). -/
def offsetMicros (o : TimeOffset) : Nat :=
  (o.hours * 3600 + o.minutes * 60 + o.seconds) * 1000000 + o.micros

/-- Anchor plus offset, rendered canonically; the division by `10^6` is the
whole-second truncation performed by `strftime('%Y-%jT%H:%M:%S')`. -/
def parse_time_offset_to_scet (base : SCET) (o : TimeOffset) : SCET :=
  ordinalOfSeconds ((secOfScet base * 1000000 + offsetMicros o) / 1000000)

/-- One field of `HH:MM:SS.f`, as read by Python `str.split(sep)` for a
single-character separator. -/
def splitOnChar (c : Char) : List Char → List (List Char)
  | [] => [[]]
  | x :: xs =>
    match splitOnChar c xs with
    | [] => [[]]
    | h :: t => if x = c then [] :: h :: t else (x :: h) :: t

/-- Python `int()` on the nonnegative digit strings found in telemetry time
fields (signed or whitespace-padded forms never occur there). -/
def digitsToNat? (l : List Char) : Option Nat :=
  if l ≠ [] ∧ l.all Char.isDigit then
    some (l.foldl (fun a c => 10 * a + (c.toNat - 48)) 0)
  else none

/-- Python `s.ljust(6, '0')[:6]`. -/
def ljust6 (l : List Char) : List Char :=
  (l ++ List.replicate 6 '0').take 6

/-- Field decoding of `parse_time_offset_to_scet` (src/pva.py lines 80-91):
split on `':'`, read hours and minutes, split the third part on `'.'` for
seconds and an optional fraction padded/truncated to six digits.  `none`
models the `ValueError`/`IndexError` the source raises on malformed input. -/
def parseOffsetFields (time_str : String) : Option TimeOffset :=
  match splitOnChar ':' time_str.toList with
  | p0 :: p1 :: p2 :: _ =>
    match digitsToNat? p0, digitsToNat? p1 with
    | some h, some m =>
      match splitOnChar '.' p2 with
      | s0 :: rest =>
        match digitsToNat? s0 with
        | some s =>
          match rest with
          | [] => some ⟨h, m, s, 0⟩
          | s1 :: _ =>
            match digitsToNat? (ljust6 s1) with
            | some f => some ⟨h, m, s, f⟩
            | none => none
        | none => none
      | [] => none
    | _, _ => none
  | _ => none

theorem parse_time_offset_correct (base : SCET) (o : TimeOffset)
    (hf : o.micros < 1000000) :
    secOfScet (parse_time_offset_to_scet base o)
      = secOfScet base + (o.hours * 3600 + o.minutes * 60 + o.seconds) := by
  unfold parse_time_offset_to_scet offsetMicros
  rw [secOfScet_ordinalOfSeconds]
  omega

/-- C3: for a fixed anchor, normalization of a relative offset is monotone
in the denoted duration (in the chronological = lexicographic order of the
canonical rendered timestamps); the result is a canonical timestamp (hence
carries across minute/hour/day/year boundaries, day-of-year wrapping into
the next year); fractional seconds are truncated (dropping the
sub-second part leaves the result unchanged), never rounded; and the
rendered instant equals the anchor plus the whole-second part of the
offset. -/
theorem normalize_offset_monotone (base : SCET) (o1 o2 : TimeOffset)
    (h1 : o1.micros < 1000000) (h2 : o2.micros < 1000000)
    (h12 : offsetMicros o1 ≤ offsetMicros o2) :
    scetLE (parse_time_offset_to_scet base o1) (parse_time_offset_to_scet base o2)
    ∧ (parse_time_offset_to_scet base o1).canonical
    ∧ parse_time_offset_to_scet base o1
        = parse_time_offset_to_scet base ⟨o1.hours, o1.minutes, o1.seconds, 0⟩
    ∧ secOfScet (parse_time_offset_to_scet base o1)
        = secOfScet base + (o1.hours * 3600 + o1.minutes * 60 + o1.seconds) := by
  refine ⟨?_, ?_, ?_, parse_time_offset_correct base o1 h1⟩
  · unfold parse_time_offset_to_scet
    rw [scetLE_iff_secOfScet_le (ordinalOfSeconds_canonical _) (ordinalOfSeconds_canonical _),
      secOfScet_ordinalOfSeconds, secOfScet_ordinalOfSeconds]
    exact Nat.div_le_div_right (by omega)
  · exact ordinalOfSeconds_canonical _
  · unfold parse_time_offset_to_scet offsetMicros
    apply congrArg ordinalOfSeconds
    show (secOfScet base * 1000000
        + ((o1.hours * 3600 + o1.minutes * 60 + o1.seconds) * 1000000 + o1.micros)) / 1000000
      = (secOfScet base * 1000000
        + ((o1.hours * 3600 + o1.minutes * 60 + o1.seconds) * 1000000 + 0)) / 1000000
    omega

/-- Witness for C3: anchor `0004-366T23:00:00` (leap year 4), offsets
`00:30:00.5` and `01:00:00`; the second result crosses the year boundary to
`0005-001T00:00:00`. -/
theorem normalize_offset_monotone_witness :
    (500000 < 1000000 ∧ 0 < 1000000
        ∧ offsetMicros ⟨0, 30, 0, 500000⟩ ≤ offsetMicros ⟨1, 0, 0, 0⟩)
    ∧ (scetLE (parse_time_offset_to_scet ⟨4, 366, 23, 0, 0⟩ ⟨0, 30, 0, 500000⟩)
          (parse_time_offset_to_scet ⟨4, 366, 23, 0, 0⟩ ⟨1, 0, 0, 0⟩)
        ∧ (parse_time_offset_to_scet ⟨4, 366, 23, 0, 0⟩ ⟨0, 30, 0, 500000⟩).canonical
        ∧ parse_time_offset_to_scet ⟨4, 366, 23, 0, 0⟩ ⟨0, 30, 0, 500000⟩
            = parse_time_offset_to_scet ⟨4, 366, 23, 0, 0⟩ ⟨0, 30, 0, 0⟩
        ∧ secOfScet (parse_time_offset_to_scet ⟨4, 366, 23, 0, 0⟩ ⟨0, 30, 0, 500000⟩)
            = secOfScet ⟨4, 366, 23, 0, 0⟩ + (0 * 3600 + 30 * 60 + 0))
    ∧ parse_time_offset_to_scet ⟨4, 366, 23, 0, 0⟩ ⟨1, 0, 0, 0⟩ = ⟨5, 1, 0, 0, 0⟩ :=
  ⟨⟨by decide, by decide, by decide⟩,
    normalize_offset_monotone ⟨4, 366, 23, 0, 0⟩ ⟨0, 30, 0, 500000⟩ ⟨1, 0, 0, 0⟩
      (by decide) (by decide) (by decide),
    by decide⟩

/-- C9: the offset normalizer is not restricted to a time of day: for hour,
minute and second fields of any magnitude (e.g. hour ≥ 24, minute ≥ 60) the
result is the canonical rendering of the anchor instant plus the full
denoted duration, rolling across as many days and year boundaries as
needed. -/
theorem offset_any_magnitude (base : SCET) (h m s f : Nat) (hf : f < 1000000) :
    secOfScet (parse_time_offset_to_scet base ⟨h, m, s, f⟩)
        = secOfScet base + (h * 3600 + m * 60 + s)
      ∧ (parse_time_offset_to_scet base ⟨h, m, s, f⟩).canonical :=
  ⟨parse_time_offset_correct base ⟨h, m, s, f⟩ hf, ordinalOfSeconds_canonical _⟩

/-- Witness for C9: a 25-hour, 61-minute, 61-second offset from
`0001-001T00:00:00` lands on day 2 with everything carried. -/
theorem offset_any_magnitude_witness :
    (0 < 1000000)
    ∧ (secOfScet (parse_time_offset_to_scet ⟨1, 1, 0, 0, 0⟩ ⟨25, 61, 61, 0⟩)
          = secOfScet ⟨1, 1, 0, 0, 0⟩ + (25 * 3600 + 61 * 60 + 61)
        ∧ (parse_time_offset_to_scet ⟨1, 1, 0, 0, 0⟩ ⟨25, 61, 61, 0⟩).canonical)
    ∧ parse_time_offset_to_scet ⟨1, 1, 0, 0, 0⟩ ⟨25, 61, 61, 0⟩ = ⟨1, 2, 2, 2, 1⟩ :=
  ⟨by decide, offset_any_magnitude ⟨1, 1, 0, 0, 0⟩ 25 61 61 0 (by decide), by decide⟩

/-! ### `strptime('%Y-%jT%H:%M:%S')` on produced SCET strings

Used by `identify_fault_clusters` (line 163), `filter_data_by_clusters`
(line 242) and the sort keys.  Field widths follow CPython's `_strptime`
patterns: `%Y` exactly four digits, `%j` one to three digits valued
1..366, `%H` at most two digits valued ≤ 23, `%M`/`%S` at most two digits
valued ≤ 59 (the regex also admits two-digit seconds 60/61, which the
`datetime` constructor then rejects — the same `None` outcome); year 0 is
rejected by the constructor.  A day-of-year beyond the year's length rolls
into the following year (`date.fromordinal`), which `secOfScet`
reproduces, so the parse result is the denoted absolute instant. -/

def parseScet (s : String) : Option Nat :=
  match splitOnChar 'T' s.toList with
  | [d, t] =>
    match splitOnChar '-' d, splitOnChar ':' t with
    | [ys, js], [hs, ms, ss] =>
      match digitsToNat? ys, digitsToNat? js, digitsToNat? hs,
          digitsToNat? ms, digitsToNat? ss with
      | some y, some j, some h, some m, some sec =>
        if ys.length = 4 ∧ 1 ≤ y ∧ js.length ≤ 3 ∧ 1 ≤ j ∧ j ≤ 366
            ∧ hs.length ≤ 2 ∧ h ≤ 23 ∧ ms.length ≤ 2 ∧ m ≤ 59
            ∧ ss.length ≤ 2 ∧ sec ≤ 59 then
          some (secOfScet ⟨y, j, h, m, sec⟩)
        else none
      | _, _, _, _, _ => none
    | _, _ => none
  | _ => none

/-- A produced row `(scet, name, value, unit)`. -/
abbrev Row := String × String × String × String

/-! ### `identify_fault_clusters` (src/pva.py lines 139-207) -/

structure FaultCluster where
  min_time : Nat
  max_time : Nat
  fault_count : Nat
deriving DecidableEq, Repr

/-- First-occurrence deduplication of the parsable fault timestamps
(lines 159-167: `if dt not in fault_timestamps: append`). -/
def dedupTimestamps (acc : List Nat) : List Row → List Nat
  | [] => acc
  | r :: rs =>
    match parseScet r.1 with
    | some dt =>
      if dt ∈ acc then dedupTimestamps acc rs else dedupTimestamps (acc ++ [dt]) rs
    | none => dedupTimestamps acc rs

/-- The sorted distinct parsable fault timestamps (lines 159-169). -/
def fault_timestamps (fault_data : List Row) : List Nat :=
  List.insertionSort (· ≤ ·) (dedupTimestamps [] fault_data)

/-- The clustering loop of lines 182-205.  `stop` is the last absorbed
timestamp, which on the sorted list is exactly the previous element, so the
source's `fault_timestamps[i] - fault_timestamps[i-1]` gap is `t - stop`
(nonnegative on the sorted input, hence truncated subtraction is exact). -/
def clusterLoop (threshold : Nat) : Nat → Nat → Nat → List Nat → List FaultCluster
  | start, stop, cnt, [] => [⟨start, stop, cnt⟩]
  | start, stop, cnt, t :: ts =>
    if t - stop ≤ threshold then clusterLoop threshold start t (cnt + 1) ts
    else ⟨start, stop, cnt⟩ :: clusterLoop threshold t t 1 ts

/-- `identify_fault_clusters` with the threshold in minutes (the source
compares against `timedelta(minutes=cluster_threshold_minutes)`, i.e.
`60 * threshold` seconds).  The source's two early returns for empty input
both land in the `[]` branch. -/
def identify_fault_clusters (fault_data : List Row)
    (cluster_threshold_minutes : Nat) : List FaultCluster :=
  match fault_timestamps fault_data with
  | [] => []
  | t :: ts => clusterLoop (60 * cluster_threshold_minutes) t t 1 ts

/-- Comparison definition for C1, following the spec's words: partition a
sorted duplicate-free timestamp sequence into maximal runs in which every
consecutive gap is at most the threshold.  `p` is the (nonempty) run being
grown. -/
def splitRunsAux (thr : Nat) : List Nat → List Nat → List (List Nat)
  | p, [] => [p]
  | p, t :: ts =>
    if t - p.getLastD 0 ≤ thr then splitRunsAux thr (p ++ [t]) ts
    else p :: splitRunsAux thr [t] ts

/-- Comparison definition for C1: the maximal-run partition of a sorted
duplicate-free timestamp sequence. -/
def specRunPartition (thr : Nat) : List Nat → List (List Nat)
  | [] => []
  | t :: ts => splitRunsAux thr [t] ts

/-- The cluster a run denotes: inclusive span plus number of distinct
timestamps absorbed. -/
def mkCluster (r : List Nat) : FaultCluster :=
  ⟨r.headD 0, r.getLastD 0, r.length⟩

theorem clusterLoop_eq_splitRunsAux (thr : Nat) :
    ∀ (ts p : List Nat), p ≠ [] →
      clusterLoop thr (p.headD 0) (p.getLastD 0) p.length ts
        = (splitRunsAux thr p ts).map mkCluster := by
  intro ts
  induction ts with
  | nil =>
    intro p hp
    simp [clusterLoop, splitRunsAux, mkCluster]
  | cons t ts ih =>
    intro p hp
    obtain ⟨x, xs, rfl⟩ : ∃ x xs, p = x :: xs := by
      cases p with
      | nil => exact absurd rfl hp
      | cons x xs => exact ⟨x, xs, rfl⟩
    rw [clusterLoop, splitRunsAux]
    by_cases hgap : t - (x :: xs).getLastD 0 ≤ thr
    · rw [if_pos hgap, if_pos hgap]
      have h4 := ih ((x :: xs) ++ [t]) (by simp)
      have hlast : ((x :: xs) ++ [t]).getLastD 0 = t := List.getLastD_concat _ _ _
      have hhead : ((x :: xs) ++ [t]).headD 0 = x := by simp
      have hlen : ((x :: xs) ++ [t]).length = (x :: xs).length + 1 := by simp
      rw [hlast, hhead, hlen] at h4
      exact h4
    · rw [if_neg hgap, if_neg hgap]
      have e : clusterLoop thr t t 1 ts = List.map mkCluster (splitRunsAux thr [t] ts) :=
        ih [t] (by simp)
      rw [List.map_cons, e]
      rfl

theorem splitRunsAux_flatten (thr : Nat) :
    ∀ (ts p : List Nat), (splitRunsAux thr p ts).flatten = p ++ ts := by
  intro ts
  induction ts with
  | nil => intro p; simp [splitRunsAux]
  | cons t ts ih =>
    intro p
    rw [splitRunsAux]
    split
    · rw [ih (p ++ [t])]
      simp
    · rw [List.flatten_cons, ih [t]]
      simp

theorem splitRunsAux_head (thr : Nat) :
    ∀ (ts p : List Nat), ∃ q rs, splitRunsAux thr p ts = (p ++ q) :: rs := by
  intro ts
  induction ts with
  | nil => intro p; exact ⟨[], [], by simp [splitRunsAux]⟩
  | cons t ts ih =>
    intro p
    rw [splitRunsAux]
    split
    · obtain ⟨q, rs, hq⟩ := ih (p ++ [t])
      exact ⟨[t] ++ q, rs, by simpa using hq⟩
    · exact ⟨[], splitRunsAux thr [t] ts, by simp⟩

theorem splitRunsAux_ne_nil (thr : Nat) :
    ∀ (ts p : List Nat), p ≠ [] → ∀ r ∈ splitRunsAux thr p ts, r ≠ [] := by
  intro ts
  induction ts with
  | nil =>
    intro p hp r hr
    simp [splitRunsAux] at hr
    subst hr; exact hp
  | cons t ts ih =>
    intro p hp r hr
    rw [splitRunsAux] at hr
    split at hr
    · exact ih (p ++ [t]) (by simp) r hr
    · rcases List.mem_cons.mp hr with rfl | hr
      · exact hp
      · exact ih [t] (by simp) r hr

theorem splitRunsAux_boundary (thr : Nat) :
    ∀ (ts p : List Nat), p ≠ [] →
      List.Chain' (fun r r' => thr < r'.headD 0 - r.getLastD 0)
        (splitRunsAux thr p ts) := by
  intro ts
  induction ts with
  | nil => intro p hp; simp [splitRunsAux]
  | cons t ts ih =>
    intro p hp
    rw [splitRunsAux]
    split
    · exact ih (p ++ [t]) (by simp)
    · rename_i hgap
      rw [List.chain'_cons']
      refine ⟨?_, ih [t] (by simp)⟩
      intro y hy
      obtain ⟨q, rs, hq⟩ := splitRunsAux_head thr ts [t]
      rw [hq] at hy
      simp only [List.head?_cons, Option.mem_def, Option.some.injEq] at hy
      subst hy
      simp only [List.singleton_append, List.headD_cons]
      omega

theorem splitRunsAux_gapLE (thr : Nat) :
    ∀ (ts p : List Nat), List.Chain' (fun a b => b - a ≤ thr) p →
      ∀ r ∈ splitRunsAux thr p ts, List.Chain' (fun a b => b - a ≤ thr) r := by
  intro ts
  induction ts with
  | nil =>
    intro p hp r hr
    simp [splitRunsAux] at hr
    subst hr; exact hp
  | cons t ts ih =>
    intro p hp r hr
    rw [splitRunsAux] at hr
    split at hr
    · rename_i hgap
      refine ih (p ++ [t]) ?_ r hr
      rw [List.chain'_append]
      refine ⟨hp, List.chain'_singleton t, ?_⟩
      intro x hx y hy
      simp only [List.head?_cons, Option.mem_def, Option.some.injEq] at hy
      subst hy
      have hx' : p.getLastD 0 = x := by
        rw [List.getLastD_eq_getLast?, hx]
        rfl
      omega
    · rcases List.mem_cons.mp hr with rfl | hr
      · exact hp
      · exact ih [t] (List.chain'_singleton t) r hr

theorem splitRunsAux_sorted (thr : Nat) :
    ∀ (ts p : List Nat), List.Chain' (· ≤ ·) (p ++ ts) →
      ∀ r ∈ splitRunsAux thr p ts, List.Chain' (· ≤ ·) r := by
  intro ts
  induction ts with
  | nil =>
    intro p hp r hr
    simp [splitRunsAux] at hr
    subst hr; simpa using hp
  | cons t ts ih =>
    intro p hp r hr
    rw [splitRunsAux] at hr
    split at hr
    · exact ih (p ++ [t]) (by simpa using hp) r hr
    · rcases List.mem_cons.mp hr with rfl | hr
      · exact (List.chain'_append.mp hp).1
      · refine ih [t] ?_ r hr
        have := (List.chain'_append.mp hp).2.1
        simpa using this

theorem dedupTimestamps_nodup : ∀ (rows : List Row) (acc : List Nat),
    acc.Nodup → (dedupTimestamps acc rows).Nodup := by
  intro rows
  induction rows with
  | nil => intro acc h; exact h
  | cons r rs ih =>
    intro acc h
    unfold dedupTimestamps
    cases hp : parseScet r.1 with
    | some dt =>
      simp only []
      by_cases hmem : dt ∈ acc
      · rw [if_pos hmem]
        exact ih acc h
      · rw [if_neg hmem]
        refine ih (acc ++ [dt]) (List.nodup_append.mpr ⟨h, List.nodup_singleton dt, ?_⟩)
        intro a ha hb
        simp only [List.mem_singleton] at hb
        subst hb
        exact hmem ha
    | none => exact ih acc h

theorem fault_timestamps_chain_lt (fd : List Row) :
    List.Chain' (· < ·) (fault_timestamps fd) := by
  have hs : List.Sorted (· ≤ ·) (fault_timestamps fd) :=
    List.sorted_insertionSort _ _
  have hperm := List.perm_insertionSort (· ≤ ·) (dedupTimestamps [] fd)
  have hn : (fault_timestamps fd).Nodup :=
    hperm.nodup_iff.mpr (dedupTimestamps_nodup fd [] List.nodup_nil)
  exact List.chain'_iff_pairwise.mpr (hs.lt_of_le hn)

theorem chain_le_headD_le_getLastD :
    ∀ (l : List Nat) (a d : Nat), List.Chain' (· ≤ ·) (a :: l) →
      a ≤ (a :: l).getLastD d := by
  intro l
  induction l with
  | nil => intro a d _; simp [List.getLastD]
  | cons b l ih =>
    intro a d h
    rw [List.getLastD_cons]
    exact le_trans (List.chain'_cons.mp h).1 (ih b a (List.chain'_cons.mp h).2)

/-- C1: `identify_fault_clusters` first collapses the parsable timestamps
into a strictly increasing sequence of distinct instants, then returns
exactly the maximal-run partition of that sequence (gap ≤ threshold joins,
gap > threshold splits): the emitted clusters are the runs' inclusive
[min, max] spans with counts equal to the number of distinct timestamps in
each run; the runs cover the sequence exactly; clusters are pairwise
disjoint (each ends strictly before the next begins) and ascending; and a
single isolated timestamp yields one cluster of count 1 with
start = end. -/
theorem identify_fault_clusters_spec (fault_data : List Row) (thr : Nat) :
    identify_fault_clusters fault_data thr
        = (specRunPartition (60 * thr) (fault_timestamps fault_data)).map mkCluster
      ∧ List.Chain' (· < ·) (fault_timestamps fault_data)
      ∧ (specRunPartition (60 * thr) (fault_timestamps fault_data)).flatten
          = fault_timestamps fault_data
      ∧ (∀ r ∈ specRunPartition (60 * thr) (fault_timestamps fault_data),
          r ≠ [] ∧ List.Chain' (fun a b => b - a ≤ 60 * thr) r)
      ∧ List.Chain' (fun r r' => 60 * thr < r'.headD 0 - r.getLastD 0)
          (specRunPartition (60 * thr) (fault_timestamps fault_data))
      ∧ List.Chain' (fun c c' => c.max_time < c'.min_time)
          (identify_fault_clusters fault_data thr)
      ∧ (∀ c ∈ identify_fault_clusters fault_data thr, c.min_time ≤ c.max_time)
      ∧ (∀ t, fault_timestamps fault_data = [t] →
          identify_fault_clusters fault_data thr = [⟨t, t, 1⟩]) := by
  have hchain_lt := fault_timestamps_chain_lt fault_data
  have hchain_le : List.Chain' (· ≤ ·) (fault_timestamps fault_data) :=
    List.Chain'.imp (fun a b h => Nat.le_of_lt h) hchain_lt
  have hmain : identify_fault_clusters fault_data thr
      = (specRunPartition (60 * thr) (fault_timestamps fault_data)).map mkCluster := by
    unfold identify_fault_clusters specRunPartition
    cases hcase : fault_timestamps fault_data with
    | nil => rfl
    | cons t ts => exact clusterLoop_eq_splitRunsAux (60 * thr) ts [t] (by simp)
  have hflat : (specRunPartition (60 * thr) (fault_timestamps fault_data)).flatten
      = fault_timestamps fault_data := by
    cases hcase : fault_timestamps fault_data with
    | nil => rfl
    | cons t ts =>
      show (splitRunsAux (60 * thr) [t] ts).flatten = t :: ts
      simpa using splitRunsAux_flatten (60 * thr) ts [t]
  have hruns : ∀ r ∈ specRunPartition (60 * thr) (fault_timestamps fault_data),
      r ≠ [] ∧ List.Chain' (fun a b => b - a ≤ 60 * thr) r := by
    intro r hr
    cases hcase : fault_timestamps fault_data with
    | nil =>
      rw [hcase] at hr
      simp [specRunPartition] at hr
    | cons t ts =>
      rw [hcase] at hr
      have hr' : r ∈ splitRunsAux (60 * thr) [t] ts := hr
      exact ⟨splitRunsAux_ne_nil _ ts [t] (by simp) r hr',
        splitRunsAux_gapLE _ ts [t] (List.chain'_singleton t) r hr'⟩
  have hbnd : List.Chain' (fun r r' => 60 * thr < r'.headD 0 - r.getLastD 0)
      (specRunPartition (60 * thr) (fault_timestamps fault_data)) := by
    cases hcase : fault_timestamps fault_data with
    | nil => exact List.chain'_nil
    | cons t ts => exact splitRunsAux_boundary _ ts [t] (by simp)
  have hclus : List.Chain' (fun c c' => c.max_time < c'.min_time)
      (identify_fault_clusters fault_data thr) := by
    rw [hmain, List.chain'_map]
    refine List.Chain'.imp ?_ hbnd
    intro r r' hgap
    show r.getLastD 0 < r'.headD 0
    omega
  have hminmax : ∀ c ∈ identify_fault_clusters fault_data thr,
      c.min_time ≤ c.max_time := by
    intro c hc
    rw [hmain] at hc
    obtain ⟨r, hr, rfl⟩ := List.mem_map.mp hc
    cases hcase : fault_timestamps fault_data with
    | nil =>
      rw [hcase] at hr
      simp [specRunPartition] at hr
    | cons t ts =>
      rw [hcase] at hr
      have hr' : r ∈ splitRunsAux (60 * thr) [t] ts := hr
      have hsorted : List.Chain' (· ≤ ·) r := by
        refine splitRunsAux_sorted _ ts [t] ?_ r hr'
        rw [hcase] at hchain_le
        simpa using hchain_le
      have hne := splitRunsAux_ne_nil _ ts [t] (by simp) r hr'
      obtain ⟨a, l', rfl⟩ : ∃ a l', r = a :: l' := by
        cases r with
        | nil => exact absurd rfl hne
        | cons a l' => exact ⟨a, l', rfl⟩
      exact chain_le_headD_le_getLastD l' a 0 hsorted
  have hsingle : ∀ t, fault_timestamps fault_data = [t] →
      identify_fault_clusters fault_data thr = [⟨t, t, 1⟩] := by
    intro t ht
    unfold identify_fault_clusters
    rw [ht]
    rfl
  exact ⟨hmain, hchain_lt, hflat, hruns, hbnd, hclus, hminmax, hsingle⟩

/-- Witness for C1: one fault row with timestamp `0004-001T00:00:00`
(absolute second 94608000) yields exactly one cluster of count 1 with
start = end. -/
theorem identify_fault_clusters_spec_witness :
    fault_timestamps [("0004-001T00:00:00", "Fault", "12", "none")] = [94608000]
    ∧ identify_fault_clusters [("0004-001T00:00:00", "Fault", "12", "none")] 10
        = [⟨94608000, 94608000, 1⟩] :=
  ⟨by decide,
    (identify_fault_clusters_spec [("0004-001T00:00:00", "Fault", "12", "none")] 10).2.2.2.2.2.2.2
      94608000 (by decide)⟩

/-! ### `filter_data_by_clusters` (src/pva.py lines 210-257) -/

/-- Extended cluster range (lines 226-235): expanded by the margin on both
sides when a margin is configured.  (Python would raise `OverflowError` if
the expansion fell before year 1; real cluster times are in the 2020s, so
the truncated subtraction is exact on all reachable inputs.) -/
def expandRange (margin_delta : Option Nat) (c : FaultCluster) : Nat × Nat :=
  match margin_delta with
  | some m => (c.min_time - m, c.max_time + m)
  | none => (c.min_time, c.max_time)

/-- The filtering loop of lines 238-255: a row whose timestamp parses is
kept iff it lies in some extended range; a row whose timestamp fails to
parse is kept unconditionally. -/
def filterRowsByRanges (ranges : List (Nat × Nat)) : List Row → List Row
  | [] => []
  | r :: rs =>
    match parseScet r.1 with
    | some t =>
      if ranges.any fun p => p.1 ≤ t && t ≤ p.2 then r :: filterRowsByRanges ranges rs
      else filterRowsByRanges ranges rs
    | none => r :: filterRowsByRanges ranges rs

theorem any_map_comp {α β : Type} (f : α → β) (l : List α) (p : β → Bool) :
    (l.map f).any p = l.any fun a => p (f a) := by
  induction l with
  | nil => rfl
  | cons x xs ih => simp [List.any_cons, ih]

def filter_data_by_clusters (all_rows : List Row) (fault_clusters : List FaultCluster)
    (margin_delta : Option Nat) : List Row :=
  if fault_clusters = [] then all_rows
  else filterRowsByRanges (fault_clusters.map (expandRange margin_delta)) all_rows

/-- C7: with a non-empty cluster list, `filter_data_by_clusters` is exactly
the order-preserving filter keeping each unmodified row whose timestamp
parses inside the margin-expanded inclusive span of at least one cluster,
together with every row whose timestamp fails to parse (fail-open). -/
theorem filter_data_by_clusters_spec (all_rows : List Row)
    (fault_clusters : List FaultCluster) (margin_delta : Option Nat)
    (h : fault_clusters ≠ []) :
    filter_data_by_clusters all_rows fault_clusters margin_delta
      = all_rows.filter fun r =>
          match parseScet r.1 with
          | some t => fault_clusters.any fun c =>
              (expandRange margin_delta c).1 ≤ t && t ≤ (expandRange margin_delta c).2
          | none => true := by
  unfold filter_data_by_clusters
  rw [if_neg h]
  induction all_rows with
  | nil => rfl
  | cons r rs ih =>
    rw [filterRowsByRanges, List.filter_cons]
    cases hp : parseScet r.1 with
    | some t =>
      simp only [hp]
      have hmap : ((List.map (expandRange margin_delta) fault_clusters).any
            fun p => p.1 ≤ t && t ≤ p.2)
          = fault_clusters.any fun c =>
              (expandRange margin_delta c).1 ≤ t && t ≤ (expandRange margin_delta c).2 := by
        rw [any_map_comp]
      rw [hmap, ih]
    | none =>
      simp only [hp]
      rw [if_pos trivial, ih]

/-- Witness for C7: one in-span row, one unparsable row (kept fail-open) and
one out-of-span row, against the single cluster spanning
`[0004-001T00:00:00, 0004-001T00:00:10]` with no margin. -/
theorem filter_data_by_clusters_spec_witness :
    ([⟨94608000, 94608010, 1⟩] : List FaultCluster) ≠ []
    ∧ filter_data_by_clusters
        [("0004-001T00:00:05", "AvgVin", "120", "U"), ("bad", "B", "2", "u"),
          ("0004-002T00:00:00", "AvgVin", "121", "U")]
        [⟨94608000, 94608010, 1⟩] none
      = List.filter (fun r =>
          match parseScet r.1 with
          | some t => ([⟨94608000, 94608010, 1⟩] : List FaultCluster).any fun c =>
              (expandRange none c).1 ≤ t && t ≤ (expandRange none c).2
          | none => true)
        [("0004-001T00:00:05", "AvgVin", "120", "U"), ("bad", "B", "2", "u"),
          ("0004-002T00:00:00", "AvgVin", "121", "U")] :=
  ⟨by decide,
    filter_data_by_clusters_spec
      [("0004-001T00:00:05", "AvgVin", "120", "U"), ("bad", "B", "2", "u"),
        ("0004-002T00:00:00", "AvgVin", "121", "U")]
      [⟨94608000, 94608010, 1⟩] none (by decide)⟩

/-! ### Slash-date disambiguation (src/pva.py lines 314-325 and 560-567)

`parse_fault_data` and `get_time_range_from_csv` contain the identical
try/except cascade over `strptime` formats `'%m/%d/%Y'`, `'%d/%m/%Y'`,
`'%Y/%m/%d'`; it is modelled once here.  Field widths follow CPython's
`_strptime` patterns (`%m` ≤ 2 digits valued 1..12, `%d` ≤ 2 digits valued
1..31, `%Y` exactly 4 digits); the `datetime` constructor additionally
requires year ≥ 1 and day ≤ length of the month, a `ValueError` caught by
the enclosing `try`, which moves on to the next format. -/

def daysInMonth (y m : Nat) : Nat :=
  if m = 2 then (if isLeap y then 29 else 28)
  else if m = 4 ∨ m = 6 ∨ m = 9 ∨ m = 11 then 30
  else 31

def monthField? (l : List Char) : Option Nat :=
  match digitsToNat? l with
  | some m => if l.length ≤ 2 ∧ 1 ≤ m ∧ m ≤ 12 then some m else none
  | none => none

def dayField? (l : List Char) : Option Nat :=
  match digitsToNat? l with
  | some d => if l.length ≤ 2 ∧ 1 ≤ d ∧ d ≤ 31 then some d else none
  | none => none

def yearField? (l : List Char) : Option Nat :=
  match digitsToNat? l with
  | some y => if l.length = 4 ∧ 1 ≤ y then some y else none
  | none => none

/-- `datetime.strptime(s, '%m/%d/%Y')`, result as `(year, month, day)`. -/
def tryParseMDY (s : String) : Option (Nat × Nat × Nat) :=
  match splitOnChar '/' s.toList with
  | [a, b, c] =>
    match monthField? a, dayField? b, yearField? c with
    | some m, some d, some y => if d ≤ daysInMonth y m then some (y, m, d) else none
    | _, _, _ => none
  | _ => none

/-- `datetime.strptime(s, '%d/%m/%Y')`, result as `(year, month, day)`. -/
def tryParseDMY (s : String) : Option (Nat × Nat × Nat) :=
  match splitOnChar '/' s.toList with
  | [a, b, c] =>
    match dayField? a, monthField? b, yearField? c with
    | some d, some m, some y => if d ≤ daysInMonth y m then some (y, m, d) else none
    | _, _, _ => none
  | _ => none

/-- `datetime.strptime(s, '%Y/%m/%d')`, result as `(year, month, day)`. -/
def tryParseYMD (s : String) : Option (Nat × Nat × Nat) :=
  match splitOnChar '/' s.toList with
  | [a, b, c] =>
    match yearField? a, monthField? b, dayField? c with
    | some y, some m, some d => if d ≤ daysInMonth y m then some (y, m, d) else none
    | _, _, _ => none
  | _ => none

/-- The cascade itself: month/day/year, then day/month/year, then
year/month/day, accepting the first reading that parses. -/
def parseSlashDate (s : String) : Option (Nat × Nat × Nat) :=
  match tryParseMDY s with
  | some v => some v
  | none =>
    match tryParseDMY s with
    | some v => some v
    | none => tryParseYMD s

/-- C2: the slash-date reader (shared verbatim by the fault-event parser
and the per-source time-range scanner) tries month/day/year, then
day/month/year, then year/month/day, in that fixed order, and accepts the
first reading that parses; consequently a date valid under both of the
first two readings (day field ≤ 12) is always produced in its
month/day/year interpretation, even when day/month/year was intended. -/
theorem parseSlashDate_order :
    (∀ s v, tryParseMDY s = some v → parseSlashDate s = some v)
    ∧ (∀ s v, tryParseMDY s = none → tryParseDMY s = some v →
        parseSlashDate s = some v)
    ∧ (∀ s, tryParseMDY s = none → tryParseDMY s = none →
        parseSlashDate s = tryParseYMD s)
    ∧ (∀ s v w, tryParseMDY s = some v → tryParseDMY s = some w →
        parseSlashDate s = some v) := by
  refine ⟨?_, ?_, ?_, ?_⟩
  · intro s v h
    unfold parseSlashDate
    rw [h]
  · intro s v h1 h2
    unfold parseSlashDate
    rw [h1, h2]
  · intro s h1 h2
    unfold parseSlashDate
    rw [h1, h2]
  · intro s v w h1 _
    unfold parseSlashDate
    rw [h1]

/-- Witness for C2: `"05/03/2025"` parses under both of the first two
readings; the cascade produces the month/day/year reading May 3, not the
day/month/year reading March 5. -/
theorem parseSlashDate_order_witness :
    tryParseMDY "05/03/2025" = some (2025, 5, 3)
    ∧ tryParseDMY "05/03/2025" = some (2025, 3, 5)
    ∧ parseSlashDate "05/03/2025" = some (2025, 5, 3) :=
  ⟨by decide, by decide,
    parseSlashDate_order.2.2.2 "05/03/2025" (2025, 5, 3) (2025, 3, 5)
      (by decide) (by decide)⟩

/-! ### `convert_csv` (src/pva.py lines 363-476)

The wide-to-long transform.  The anchor resolution from the metadata line
(lines 398-421, with its fixed default on parse failure) is factored out as
the `base` argument; `min_time`/`max_time` arrive as parsed instants, as in
the source (lines 388-395).  A row's rendered timestamp is re-parsed by the
source for filtering and sorting, an exact roundtrip, so records carry the
denoted instant.  `none` models the uncaught exception `convert_csv` raises
when a surviving row's time field does not parse.  (`datetime` overflow
beyond year 9999 is outside this embedding, as is the `row[-1]` negative
indexing that only a zero-column header line could reach.) -/

structure MeasurementRecord where
  scet : Nat
  name : String
  value : String
  unit : String
deriving DecidableEq, Repr

/-- Lines 430-435: `for i, header in enumerate(headers)`, keeping every
column except the first (identifier) and last (time offset), decoded by
`extract_unit_from_column_name`. -/
def dataColsAux (H : Nat) (i : Nat) : List String → List (Nat × String × String)
  | [] => []
  | h :: hs =>
    if i ≠ 0 ∧ i ≠ H - 1 then
      (i, (extract_unit_from_column_name h).1, (extract_unit_from_column_name h).2)
        :: dataColsAux H (i + 1) hs
    else dataColsAux H (i + 1) hs

def data_columns (headers : List String) : List (Nat × String × String) :=
  dataColsAux headers.length 0 headers

/-- Line 454: `min_datetime and scet_datetime < min_datetime`. -/
def belowMin (minT : Option Nat) (t : Nat) : Bool :=
  match minT with
  | some m => t < m
  | none => false

/-- Line 456: `max_datetime and scet_datetime > max_datetime`. -/
def aboveMax (maxT : Option Nat) (t : Nat) : Bool :=
  match maxT with
  | some m => m < t
  | none => false

/-- The row loop of lines 444-462: skip empty or short rows, parse the time
offset of the last header column (exception = `none`), apply the optional
inclusive time filter, then emit one record per measurement column. -/
def convertRows (base : SCET) (H : Nat) (cols : List (Nat × String × String))
    (minT maxT : Option Nat) : List (List String) → Option (List MeasurementRecord)
  | [] => some []
  | row :: rs =>
    if row = [] ∨ row.length < H then convertRows base H cols minT maxT rs
    else
      match parseOffsetFields (row.getD (H - 1) "") with
      | none => none
      | some o =>
        if belowMin minT (secOfScet (parse_time_offset_to_scet base o)) then
          convertRows base H cols minT maxT rs
        else if aboveMax maxT (secOfScet (parse_time_offset_to_scet base o)) then
          convertRows base H cols minT maxT rs
        else
          match convertRows base H cols minT maxT rs with
          | none => none
          | some rest =>
            some ((cols.map fun c =>
              ⟨secOfScet (parse_time_offset_to_scet base o), c.2.1, row.getD c.1 "", c.2.2⟩)
              ++ rest)

/-- Line 465: stable sort of all collected rows by (re-parsed) timestamp. -/
def sortRecords (l : List MeasurementRecord) : List MeasurementRecord :=
  List.insertionSort (fun a b => a.scet ≤ b.scet) l

/-- `convert_csv`: fault rows (already parsed and filtered) are prepended,
data rows collected, and everything sorted by timestamp. -/
def convert_csv (base : SCET) (headers : List String) (rows : List (List String))
    (minT maxT : Option Nat) (fault_data : List MeasurementRecord) :
    Option (List MeasurementRecord) :=
  match convertRows base headers.length (data_columns headers) minT maxT rows with
  | none => none
  | some recs => some (sortRecords (fault_data ++ recs))

theorem dataColsAux_len_tail :
    ∀ (hs : List String) (i H : Nat), 1 ≤ i → i + hs.length = H →
      (dataColsAux H i hs).length = hs.length - 1 := by
  intro hs
  induction hs with
  | nil => intro i H h1 h2; rfl
  | cons h hs ih =>
    intro i H h1 h2
    simp only [List.length_cons] at h2 ⊢
    by_cases hlast : i = H - 1
    · have he : hs = [] := List.length_eq_zero.mp (by omega)
      subst he
      rw [dataColsAux, if_neg (by omega)]
      rfl
    · rw [dataColsAux, if_pos ⟨by omega, hlast⟩, List.length_cons,
        ih (i + 1) H (by omega) (by omega)]
      omega

theorem data_columns_length (headers : List String) :
    (data_columns headers).length = headers.length - 2 := by
  cases headers with
  | nil => rfl
  | cons h0 rest =>
    show (dataColsAux ((h0 :: rest).length) 0 (h0 :: rest)).length = (h0 :: rest).length - 2
    rw [dataColsAux, if_neg (by simp)]
    rw [dataColsAux_len_tail rest 1 ((h0 :: rest).length) (by omega)
      (by simp only [List.length_cons]; omega)]
    simp only [List.length_cons]
    omega

theorem convertRows_count (base : SCET) (H : Nat)
    (cols : List (Nat × String × String)) (hH : 1 ≤ H) :
    ∀ rows : List (List String),
      (∀ row ∈ rows, row.length = H) →
      (∀ row ∈ rows, (parseOffsetFields (row.getD (H - 1) "")).isSome) →
      ∃ out, convertRows base H cols none none rows = some out
        ∧ out.length = rows.length * cols.length := by
  intro rows
  induction rows with
  | nil => intro _ _; exact ⟨[], rfl, by simp⟩
  | cons row rs ih =>
    intro hw hp
    obtain ⟨out, hout, hlen⟩ :=
      ih (fun r hr => hw r (List.mem_cons_of_mem _ hr))
        (fun r hr => hp r (List.mem_cons_of_mem _ hr))
    have hwr : row.length = H := hw row (List.mem_cons_self _ _)
    have hpr := hp row (List.mem_cons_self _ _)
    obtain ⟨o, ho⟩ := Option.isSome_iff_exists.mp hpr
    have hne : ¬(row = [] ∨ row.length < H) := by
      intro hc
      rcases hc with hc | hc
      · subst hc; simp at hwr; omega
      · omega
    refine ⟨(cols.map fun c =>
        ⟨secOfScet (parse_time_offset_to_scet base o), c.2.1, row.getD c.1 "", c.2.2⟩) ++ out,
      ?_, ?_⟩
    · rw [convertRows, if_neg hne]
      simp only [ho]
      rw [hout]
      rfl
    · simp only [List.length_append, List.length_map, List.length_cons, hlen]
      ring

theorem convertRows_drop (base : SCET) (H : Nat)
    (cols : List (Nat × String × String)) (minT maxT : Option Nat) :
    ∀ (rows₁ rows₂ : List (List String)) (short : List String),
      short.length < H →
      convertRows base H cols minT maxT (rows₁ ++ short :: rows₂)
        = convertRows base H cols minT maxT (rows₁ ++ rows₂) := by
  intro rows₁
  induction rows₁ with
  | nil =>
    intro rows₂ short hshort
    rw [List.nil_append, List.nil_append, convertRows, if_pos (Or.inr hshort)]
  | cons r rows₁ ih =>
    intro rows₂ short hshort
    rw [List.cons_append, List.cons_append]
    by_cases hskip : r = [] ∨ r.length < H
    · rw [convertRows, if_pos hskip, convertRows, if_pos hskip, ih rows₂ short hshort]
    · rw [convertRows, if_neg hskip, convertRows, if_neg hskip]
      cases ho : parseOffsetFields (r.getD (H - 1) "") with
      | none => rfl
      | some o => simp only [ih rows₂ short hshort]

/-- C5: for a telemetry file whose header has `H` columns, rows of exactly
`H` fields with parsable time offsets, no time filter and no fault file
produce exactly `rows × (H - 2)` measurement records (one per measurement
column per row, identifier and time columns excluded); and any row with
fewer fields than the header contributes nothing — it is dropped silently,
leaving the output of the remaining rows unchanged, not an error. -/
theorem convert_csv_spec :
    (∀ (base : SCET) (headers : List String) (rows : List (List String)),
      2 ≤ headers.length →
      (∀ row ∈ rows, row.length = headers.length) →
      (∀ row ∈ rows, (parseOffsetFields (row.getD (headers.length - 1) "")).isSome) →
      ∃ out, convert_csv base headers rows none none [] = some out
        ∧ out.length = rows.length * (headers.length - 2))
    ∧ (∀ (base : SCET) (headers : List String) (rows₁ rows₂ : List (List String))
        (short : List String) (minT maxT : Option Nat) (fd : List MeasurementRecord),
        short.length < headers.length →
        convert_csv base headers (rows₁ ++ short :: rows₂) minT maxT fd
          = convert_csv base headers (rows₁ ++ rows₂) minT maxT fd) := by
  constructor
  · intro base headers rows h2 hw hp
    obtain ⟨out, hout, hlen⟩ :=
      convertRows_count base headers.length (data_columns headers) (by omega) rows hw hp
    refine ⟨sortRecords ([] ++ out), ?_, ?_⟩
    · unfold convert_csv
      rw [hout]
    · rw [List.nil_append]
      unfold sortRecords
      rw [(List.perm_insertionSort _ out).length_eq, hlen, data_columns_length]
  · intro base headers rows₁ rows₂ short minT maxT fd hshort
    unfold convert_csv
    rw [convertRows_drop base headers.length (data_columns headers) minT maxT
      rows₁ rows₂ short hshort]

/-- Witness for C5: header `RecNr, AvgVin(U), Time` with one full-width row
yields exactly `1 × (3 - 2) = 1` record, and inserting a one-field
truncated row changes nothing. -/
theorem convert_csv_spec_witness :
    (2 ≤ (["RecNr", "AvgVin(U)", "Time"] : List String).length
      ∧ (∀ row ∈ [["1", "120", "00:00:01.0"]], row.length = 3)
      ∧ (∀ row ∈ [["1", "120", "00:00:01.0"]],
          (parseOffsetFields (row.getD 2 "")).isSome)
      ∧ (["1"] : List String).length < 3)
    ∧ (∃ out, convert_csv ⟨4, 1, 0, 0, 0⟩ ["RecNr", "AvgVin(U)", "Time"]
        [["1", "120", "00:00:01.0"]] none none [] = some out
        ∧ out.length = 1 * (3 - 2))
    ∧ convert_csv ⟨4, 1, 0, 0, 0⟩ ["RecNr", "AvgVin(U)", "Time"]
        ([] ++ ["1"] :: [["1", "120", "00:00:01.0"]]) none none []
      = convert_csv ⟨4, 1, 0, 0, 0⟩ ["RecNr", "AvgVin(U)", "Time"]
        ([] ++ [["1", "120", "00:00:01.0"]]) none none [] :=
  ⟨⟨by decide, by decide, by decide, by decide⟩,
    convert_csv_spec.1 ⟨4, 1, 0, 0, 0⟩ ["RecNr", "AvgVin(U)", "Time"]
      [["1", "120", "00:00:01.0"]] (by decide) (by decide) (by decide),
    convert_csv_spec.2 ⟨4, 1, 0, 0, 0⟩ ["RecNr", "AvgVin(U)", "Time"]
      [] [["1", "120", "00:00:01.0"]] ["1"] none none [] (by decide)⟩

/-! ### MergeAll segment selection (src/pva.py lines 877-933)

Under `overlap_policy == 'ALL'` each overlapping candidate, in priority
order, gets a segment: the intersection of its time range with the
(possibly margin-expanded) fault range (lines 883-884).  A candidate whose
segment is wholly contained in a previously accepted segment is skipped
entirely — `continue`, no rows appended (lines 889-898); otherwise the
candidate is transformed over its segment and the segment recorded as
covered (line 929). -/

def segIntersect (fault : Nat × Nat) (file : Nat × Nat) : Nat × Nat :=
  (max fault.1 file.1, min fault.2 file.2)

def mergeAllLoop (fault : Nat × Nat) (covered : List (Nat × Nat)) :
    List (Nat × Nat) → List (Nat × Nat)
  | [] => covered
  | f :: fs =>
    if covered.any fun cov => cov.1 ≤ (segIntersect fault f).1
        && (segIntersect fault f).2 ≤ cov.2 then
      mergeAllLoop fault covered fs
    else
      mergeAllLoop fault (covered ++ [segIntersect fault f]) fs

/-- The accepted segments of a MergeAll run, in acceptance order. -/
def mergeAllSegments (fault : Nat × Nat) (files : List (Nat × Nat)) :
    List (Nat × Nat) :=
  mergeAllLoop fault [] files

theorem mergeAllLoop_pairwise (fault : Nat × Nat) :
    ∀ (files covered : List (Nat × Nat)),
      List.Pairwise (fun t s => ¬(t.1 ≤ s.1 ∧ s.2 ≤ t.2)) covered →
      List.Pairwise (fun t s => ¬(t.1 ≤ s.1 ∧ s.2 ≤ t.2))
        (mergeAllLoop fault covered files) := by
  intro files
  induction files with
  | nil => intro covered h; exact h
  | cons f fs ih =>
    intro covered h
    rw [mergeAllLoop]
    split
    · exact ih covered h
    · rename_i hany
      refine ih _ (List.pairwise_append.mpr ⟨h, List.pairwise_singleton _ _, ?_⟩)
      intro t ht s hs
      simp only [List.mem_singleton] at hs
      subst hs
      intro hcont
      exact hany (List.any_eq_true.mpr ⟨t, ht, by simp [hcont.1, hcont.2]⟩)

theorem mergeAllLoop_subset (fault : Nat × Nat) :
    ∀ (files covered : List (Nat × Nat)), ∀ s ∈ mergeAllLoop fault covered files,
      s ∈ covered ∨ s ∈ files.map (segIntersect fault) := by
  intro files
  induction files with
  | nil => intro covered s hs; exact Or.inl hs
  | cons f fs ih =>
    intro covered s hs
    rw [mergeAllLoop] at hs
    split at hs
    · rcases ih covered s hs with hc | hm
      · exact Or.inl hc
      · exact Or.inr (by simp [hm])
    · rcases ih (covered ++ [segIntersect fault f]) s hs with hc | hm
      · rcases List.mem_append.mp hc with hc | hc
        · exact Or.inl hc
        · simp only [List.mem_singleton] at hc
          exact Or.inr (by simp [hc])
      · exact Or.inr (by simp [hm])

/-- C6: under MergeAll every candidate's segment is the intersection of its
time range with the fault range; a candidate whose segment is wholly
contained in some previously accepted segment is skipped entirely, leaving
the loop state unchanged (so it contributes no rows); a candidate whose
segment is contained in no previously accepted segment is accepted — the
loop state is extended by exactly its segment; hence no accepted segment
is contained — in particular not strictly contained — in an earlier
accepted segment, and two candidates whose segments only partially overlap
(neither containing the other's) are both included with no subtraction. -/
theorem mergeAll_segments_spec :
    (∀ (fault : Nat × Nat) (files : List (Nat × Nat)),
      List.Pairwise (fun t s => ¬(t.1 ≤ s.1 ∧ s.2 ≤ t.2))
        (mergeAllSegments fault files))
    ∧ (∀ (fault : Nat × Nat) (covered : List (Nat × Nat)) (f : Nat × Nat)
        (fs : List (Nat × Nat)),
        (∃ cov ∈ covered, cov.1 ≤ (segIntersect fault f).1
          ∧ (segIntersect fault f).2 ≤ cov.2) →
        mergeAllLoop fault covered (f :: fs) = mergeAllLoop fault covered fs)
    ∧ (∀ (fault : Nat × Nat) (files : List (Nat × Nat)),
        ∀ s ∈ mergeAllSegments fault files, s ∈ files.map (segIntersect fault))
    ∧ (∀ (fault : Nat × Nat) (covered : List (Nat × Nat)) (f : Nat × Nat)
        (fs : List (Nat × Nat)),
        (∀ cov ∈ covered, ¬(cov.1 ≤ (segIntersect fault f).1
          ∧ (segIntersect fault f).2 ≤ cov.2)) →
        mergeAllLoop fault covered (f :: fs)
          = mergeAllLoop fault (covered ++ [segIntersect fault f]) fs)
    ∧ (∀ (fault f1 f2 : Nat × Nat),
        ¬((segIntersect fault f1).1 ≤ (segIntersect fault f2).1
          ∧ (segIntersect fault f2).2 ≤ (segIntersect fault f1).2) →
        mergeAllSegments fault [f1, f2]
          = [segIntersect fault f1, segIntersect fault f2]) := by
  refine ⟨?_, ?_, ?_, ?_, ?_⟩
  · intro fault files
    exact mergeAllLoop_pairwise fault files [] List.Pairwise.nil
  · intro fault covered f fs hex
    obtain ⟨cov, hcov, h1, h2⟩ := hex
    rw [mergeAllLoop, if_pos (List.any_eq_true.mpr ⟨cov, hcov, by simp [h1, h2]⟩)]
  · intro fault files s hs
    rcases mergeAllLoop_subset fault files [] s hs with hc | hm
    · simp at hc
    · exact hm
  · intro fault covered f fs hnc
    have hfalse : ¬((covered.any fun cov => cov.1 ≤ (segIntersect fault f).1
        && (segIntersect fault f).2 ≤ cov.2) = true) := by
      intro hany
      obtain ⟨cov, hcov, hp⟩ := List.any_eq_true.mp hany
      simp only [Bool.and_eq_true, decide_eq_true_eq] at hp
      exact hnc cov hcov hp
    rw [mergeAllLoop, if_neg hfalse]
  · intro fault f1 f2 hnc
    unfold mergeAllSegments
    rw [mergeAllLoop, if_neg (by simp), List.nil_append]
    have hfalse : ¬((([segIntersect fault f1] : List (Nat × Nat)).any
        fun cov => cov.1 ≤ (segIntersect fault f2).1
          && (segIntersect fault f2).2 ≤ cov.2) = true) := by
      intro hany
      obtain ⟨cov, hcov, hp⟩ := List.any_eq_true.mp hany
      simp only [List.mem_singleton] at hcov
      subst hcov
      simp only [Bool.and_eq_true, decide_eq_true_eq] at hp
      exact hnc hp
    rw [mergeAllLoop, if_neg hfalse, mergeAllLoop]
    rfl

/-- Witness for C6: with fault range `[0,100]` and accepted segment
`[10,50]`, a candidate whose segment is `[20,30]` is skipped entirely,
while a candidate whose segment `[40,80]` only partially overlaps is
accepted, extending the covered list by exactly that segment; the two
partially overlapping candidates `[10,50]` and `[40,80]` are both
included. -/
theorem mergeAll_segments_spec_witness :
    ((∃ cov ∈ [((10 : Nat), (50 : Nat))],
        cov.1 ≤ (segIntersect (0, 100) (20, 30)).1
          ∧ (segIntersect (0, 100) (20, 30)).2 ≤ cov.2)
      ∧ mergeAllLoop (0, 100) [(10, 50)] [(20, 30)]
          = mergeAllLoop (0, 100) [(10, 50)] [])
    ∧ ((∀ cov ∈ [((10 : Nat), (50 : Nat))],
        ¬(cov.1 ≤ (segIntersect (0, 100) (40, 80)).1
          ∧ (segIntersect (0, 100) (40, 80)).2 ≤ cov.2))
      ∧ mergeAllLoop (0, 100) [(10, 50)] [(40, 80)]
          = mergeAllLoop (0, 100) [(10, 50), (40, 80)] [])
    ∧ (¬((segIntersect (0, 100) (10, 50)).1 ≤ (segIntersect (0, 100) (40, 80)).1
          ∧ (segIntersect (0, 100) (40, 80)).2 ≤ (segIntersect (0, 100) (10, 50)).2)
      ∧ mergeAllSegments (0, 100) [(10, 50), (40, 80)]
          = [segIntersect (0, 100) (10, 50), segIntersect (0, 100) (40, 80)]) :=
  ⟨⟨⟨(10, 50), by decide, by decide, by decide⟩,
      mergeAll_segments_spec.2.1 (0, 100) [(10, 50)] (20, 30) []
        ⟨(10, 50), by decide, by decide, by decide⟩⟩,
    ⟨by decide,
      mergeAll_segments_spec.2.2.2.1 (0, 100) [(10, 50)] (40, 80) [] (by decide)⟩,
    ⟨by decide,
      mergeAll_segments_spec.2.2.2.2 (0, 100) (10, 50) (40, 80) (by decide)⟩⟩

/-! ### Directory-mode control flow (src/pva.py lines 626-967)

The run's effectful skeleton, as a function from the facts the source
reads off the filesystem to a (result, write-trace) pair.  `DirState`
carries: whether `FaultLog.csv` exists after conversion (line 695); the
fault range from `get_time_range_from_csv`, `none` when no row parses
(lines 702-706); the margin option — `none` for no flag, `some none` for
an unparsable margin string (lines 712-717), `some (some m)` for `m`
seconds; and the candidate ranges in priority order (24HR, 24prev, Month),
`none` for a missing file or one with no valid data (lines 732-745).  The
trace records the debug intermediate writes of lines 669-691, which happen
before any validation, and the canonical output write (line 795 with its
optional line 826 rewrite, or line 958). -/

inductive DirEvent where
  | intermediateOut
  | canonicalWrite
deriving DecidableEq, Repr

structure DirState where
  faultPresent : Bool
  faultRange : Option (Nat × Nat)
  margin : Option (Option Nat)
  candidates : List (Option (Nat × Nat))
deriving DecidableEq, Repr

def marginSeconds (st : DirState) : Nat :=
  match st.margin with
  | some (some m) => m
  | _ => 0

/-- The candidates (in priority order) whose ranges overlap the
margin-expanded fault range — lines 719-753. -/
def overlappingSources (st : DirState) : List (Nat × Nat) :=
  match st.faultRange with
  | none => []
  | some r =>
    (st.candidates.filterMap id).filter fun c =>
      check_overlap (some (r.1 - marginSeconds st)) (some (r.2 + marginSeconds st))
        (some c.1) (some c.2)

def process_directory_mode (st : DirState) : Bool × List DirEvent :=
  match st.faultPresent with
  | false => (false, [DirEvent.intermediateOut])
  | true =>
    match st.faultRange with
    | none => (false, [DirEvent.intermediateOut])
    | some _ =>
      match st.margin with
      | some none => (false, [DirEvent.intermediateOut])
      | _ =>
        if overlappingSources st = [] then (false, [DirEvent.intermediateOut])
        else (true, [DirEvent.intermediateOut, DirEvent.canonicalWrite])

/-- C8: a directory-mode run returns a failure result and never performs
the canonical-output write when the fault source yields zero parsable
events (undefined fault range) or when zero candidates overlap the
(possibly margin-expanded) fault range — the abort happens before the
canonical file is created, so the trace contains no canonical write (only
the pre-validation debug intermediates).  Conversely a run with
`FaultLog.csv` present, a defined fault range, a valid margin and at least
one overlapping candidate succeeds and performs the canonical write. -/
theorem process_directory_mode_spec :
    (∀ st : DirState, st.faultRange = none ∨ overlappingSources st = [] →
      (process_directory_mode st).1 = false
        ∧ DirEvent.canonicalWrite ∉ (process_directory_mode st).2)
    ∧ (∀ st : DirState, st.faultPresent = true → st.faultRange ≠ none →
        st.margin ≠ some none → overlappingSources st ≠ [] →
        (process_directory_mode st).1 = true
          ∧ DirEvent.canonicalWrite ∈ (process_directory_mode st).2) := by
  constructor
  · intro st h
    obtain ⟨fp, fr, mg, cands⟩ := st
    cases fp with
    | false => exact ⟨rfl, by show DirEvent.canonicalWrite ∉ [DirEvent.intermediateOut]; decide⟩
    | true =>
      cases fr with
      | none => exact ⟨rfl, by show DirEvent.canonicalWrite ∉ [DirEvent.intermediateOut]; decide⟩
      | some r =>
        have hov : overlappingSources ⟨true, some r, mg, cands⟩ = [] := by
          rcases h with h | h
          · exact absurd h (by simp)
          · exact h
        rcases mg with _ | mg2
        · have hred : process_directory_mode ⟨true, some r, none, cands⟩
              = if overlappingSources ⟨true, some r, none, cands⟩ = [] then
                  (false, [DirEvent.intermediateOut])
                else (true, [DirEvent.intermediateOut, DirEvent.canonicalWrite]) := rfl
          rw [hred, if_pos hov]
          exact ⟨rfl, by decide⟩
        · rcases mg2 with _ | m
          · exact ⟨rfl, by show DirEvent.canonicalWrite ∉ [DirEvent.intermediateOut]; decide⟩
          · have hred : process_directory_mode ⟨true, some r, some (some m), cands⟩
                = if overlappingSources ⟨true, some r, some (some m), cands⟩ = [] then
                    (false, [DirEvent.intermediateOut])
                  else (true, [DirEvent.intermediateOut, DirEvent.canonicalWrite]) := rfl
            rw [hred, if_pos hov]
            exact ⟨rfl, by decide⟩
  · intro st h1 h2 h3 h4
    obtain ⟨fp, fr, mg, cands⟩ := st
    cases fp with
    | false => exact absurd h1 (by simp)
    | true =>
      cases fr with
      | none => exact (h2 rfl).elim
      | some r =>
        rcases mg with _ | mg2
        · have hred : process_directory_mode ⟨true, some r, none, cands⟩
              = if overlappingSources ⟨true, some r, none, cands⟩ = [] then
                  (false, [DirEvent.intermediateOut])
                else (true, [DirEvent.intermediateOut, DirEvent.canonicalWrite]) := rfl
          rw [hred, if_neg h4]
          exact ⟨rfl, by decide⟩
        · rcases mg2 with _ | m
          · exact (h3 rfl).elim
          · have hred : process_directory_mode ⟨true, some r, some (some m), cands⟩
                = if overlappingSources ⟨true, some r, some (some m), cands⟩ = [] then
                    (false, [DirEvent.intermediateOut])
                  else (true, [DirEvent.intermediateOut, DirEvent.canonicalWrite]) := rfl
            rw [hred, if_neg h4]
            exact ⟨rfl, by decide⟩

/-- Witness for C8: a state with no parsable fault events aborts with no
canonical write; a state with a defined fault range, valid margin and an
overlapping candidate succeeds and writes the canonical output. -/
theorem process_directory_mode_spec_witness :
    ((DirState.mk true none none [some (0, 10)]).faultRange = none
      ∧ (process_directory_mode ⟨true, none, none, [some (0, 10)]⟩).1 = false
      ∧ DirEvent.canonicalWrite ∉ (process_directory_mode ⟨true, none, none, [some (0, 10)]⟩).2)
    ∧ ((process_directory_mode ⟨true, some (5, 15), none, [some (0, 10)]⟩).1 = true
      ∧ DirEvent.canonicalWrite ∈ (process_directory_mode ⟨true, some (5, 15), none, [some (0, 10)]⟩).2) :=
  ⟨⟨rfl,
    process_directory_mode_spec.1 ⟨true, none, none, [some (0, 10)]⟩ (Or.inl rfl)⟩,
    process_directory_mode_spec.2 ⟨true, some (5, 15), none, [some (0, 10)]⟩
      rfl (by decide) (by decide) (by decide)⟩
